import Mathlib

/-!
Shallow embedding of gh-auditor (src/lib.rs, src/config.rs, src/error.rs).

The program audits a GitHub organisation: `Auditor::audit` runs three
checks (2FA enforcement, admin commit activity, protected master
branches), collecting every failing check's error instead of stopping at
the first.  The checks pull data through two pagination helpers,
`Auditor::find` (first match, early exit) and `Auditor::get_all`
(concatenate all pages), that walk the `Link: rel=next` chain of
GitHub's paged endpoints.

The HTTP client is an external collaborator; following the system
boundary it is modelled as a function from URL to `FetchOutcome`:
either a transport-level failure (connection error or non-2xx status
surfaced by the client — the engine does not special-case any status)
or a response carrying pagination link metadata and a decoded JSON
body (`none` = body failed to decode).  Both transport and decode
failures map to the `Error.http` variant, as in the Rust code where
both are wrapped by `error::Http`.

The Rust pagination loops may diverge on a cyclic link chain, so the
loops are embedded with explicit fuel; a result of `none` means the
loop was still running when the fuel ran out (the divergence
surrogate), and every theorem about finite page sequences supplies
enough fuel for the loop to run exactly as the Rust loop would.
-/

/-- JSON values as manipulated by the program via `serde_json::Value`.
Numbers appear in none of the audited fields, so they are carried as
integers, which is enough for every access the code performs. -/
inductive Json where
  | null
  | bool (b : Bool)
  | num (n : Int)
  | str (s : String)
  | arr (items : List Json)
  | obj (fields : List (String × Json))

/-- Field lookup in an object's field list (first binding wins, as in a
map where keys are unique). -/
def lookupField : List (String × Json) → String → Option Json
  | [], _ => none
  | (k, v) :: rest, key => if k == key then some v else lookupField rest key

/-- Models `serde_json::Value::get(key)`: a field lookup that yields
`None` on any non-object value. -/
def Json.get (j : Json) (key : String) : Option Json :=
  match j with
  | .obj fields => lookupField fields key
  | _ => none

/-- Models `Value::as_bool`. -/
def Json.asBool : Json → Option Bool
  | .bool b => some b
  | _ => none

/-- Models `Value::as_str`. -/
def Json.asStr : Json → Option String
  | .str s => some s
  | _ => none

/-- Models `Value::as_array`. -/
def Json.asArray : Json → Option (List Json)
  | .arr items => some items
  | _ => none

/-- Models serde_json's `Value == &str` comparison: true exactly when
the value is a string equal to `s`. -/
def Json.isStrEq (j : Json) (s : String) : Bool :=
  match j with
  | .str t => t == s
  | _ => false

/-- Character-list test used by `strReplace`: is the second list a
starting segment of the first. -/
def charsStart : List Char → List Char → Bool
  | _, [] => true
  | [], _ :: _ => false
  | c :: cs, p :: ps => c == p && charsStart cs ps

/-- Fuel-driven core of `strReplace`; each step consumes at least one
character of the subject when the pattern is nonempty, so one unit of
fuel per subject character always suffices. -/
def replaceChars (pattern replacement : List Char) : Nat → List Char → List Char
  | _, [] => []
  | 0, l => l
  | fuel + 1, c :: cs =>
    if charsStart (c :: cs) pattern then
      replacement ++ replaceChars pattern replacement fuel (cs.drop (pattern.length - 1))
    else c :: replaceChars pattern replacement fuel cs

/-- Models Rust's `str::replace`: every non-overlapping occurrence of
`pattern`, scanned left to right, is replaced (the program only ever
substitutes the nonempty URL templates `{/member}`, `{/privacy}` and
`{/branch}`). -/
def strReplace (s pattern replacement : String) : String :=
  if pattern.isEmpty then s
  else String.mk (replaceChars pattern.data replacement.data s.data.length s.data)

/-- The pagination link metadata of one response's headers: either no
link header / no `next` relation, a header that fails to decode, or a
`next` relation carrying the next page's URL. -/
inductive LinkMeta where
  | absent
  | malformed
  | nextLink (url : String)

/-- Models the header processing in `find` / `get_all`: `decode::<Link>()
.ok().and_then(find next relation)` — a malformed or absent link header
simply yields no next cursor, never an error. -/
def decodeNext : LinkMeta → Option String
  | .absent => none
  | .malformed => none
  | .nextLink u => some u

/-- Outcome of one authenticated GET issued by the underlying client:
`transport` is any failure surfaced by `send()` (connection failure or
non-2xx status, per the system boundary), and `success` carries the
link metadata and the body decode result (`none` = `json()` failed). -/
inductive FetchOutcome where
  | transport
  | success (meta : LinkMeta) (body : Option Json)

/-- Errors of `error.rs` reachable from the audit engine.  `NoAuthKey`
and `HyperX` are omitted: the former occurs before an `Auditor` exists
and the latter is never constructed (header decode errors are dropped
by `.ok()`). -/
inductive AuditError where
  | adminsHaveCommits (admins : List Json)
  | disabled2Fa
  | noAuditsRan
  | unProtectedMasterBranches (repos : List Json)

/-- The error type of `error.rs` (engine-reachable part; `http` covers
both transport and body-decode failures, as `error::Http` does). -/
inductive Error where
  | http
  | audit (kind : AuditError)
  | missingGitHubData

/-- Alias mirroring `pub type Result<T>`. -/
abbrev AuditResult (α : Type) := Except Error α

/-- The `while let Some(url) = next` loop of `Auditor::find`, with the
world `fetch` standing for the HTTP client and explicit fuel.  Returns
the loop's result together with the number of page fetches performed;
`none` is the divergence surrogate for fuel exhaustion. -/
def findAux (fetch : String → FetchOutcome) (pred : Json → Bool) :
    Nat → Option String → Option (AuditResult (Option Json) × Nat)
  | _, none => some (Except.ok none, 0)
  | 0, some _ => none
  | fuel + 1, some url =>
    match fetch url with
    | .transport => some (Except.error Error.http, 1)
    | .success meta body =>
      let next := decodeNext meta
      match body with
      | none => some (Except.error Error.http, 1)
      | some json =>
        match json.asArray.bind (List.find? pred) with
        | some item => some (Except.ok (some item), 1)
        | none => (findAux fetch pred fuel next).map (fun p => (p.1, p.2 + 1))

/-- Models `Auditor::find(url, pred)`. -/
def find (fetch : String → FetchOutcome) (pred : Json → Bool) (fuel : Nat)
    (url : String) : Option (AuditResult (Option Json) × Nat) :=
  findAux fetch pred fuel (some url)

/-- The loop of `Auditor::get_all`, with the accumulated `entities`
vector made explicit. -/
def getAllAux (fetch : String → FetchOutcome) :
    Nat → Option String → List Json → Option (AuditResult (List Json))
  | _, none, acc => some (Except.ok acc)
  | 0, some _, _ => none
  | fuel + 1, some url, acc =>
    match fetch url with
    | .transport => some (Except.error Error.http)
    | .success meta body =>
      let next := decodeNext meta
      match body with
      | none => some (Except.error Error.http)
      | some json =>
        match json.asArray with
        | none => some (Except.error Error.missingGitHubData)
        | some items => getAllAux fetch fuel next (acc ++ items)

/-- Models `Auditor::get_all(url)`. -/
def get_all (fetch : String → FetchOutcome) (fuel : Nat) (url : String) :
    Option (AuditResult (List Json)) :=
  getAllAux fetch fuel (some url) []

/-- The toggle/whitelist structure of `config.rs`. -/
structure Config where
  enforces_2fa : Bool
  admins_have_no_commit_activity : Bool
  all_repos_master_is_protected : Bool
  installed_app_whitelist : Option (List String)
  admin_whitelist : Option (List String)
  member_whitelist : Option (List String)

/-- Models `impl Default for Config`: every toggle is `true` (the doc
comment on `all_repos_master_is_protected` announces `false`, the
implementation sets `true`), every whitelist `None`. -/
def Config.default : Config :=
  { enforces_2fa := true
    admins_have_no_commit_activity := true
    all_repos_master_is_protected := true
    installed_app_whitelist := none
    admin_whitelist := none
    member_whitelist := none }

/-- The audit-relevant state of `Auditor`: its configuration, the
fetched organisation JSON, and the `has_run_audit` flag.  The client
and auth key are represented by the ambient `fetch` function. -/
structure Auditor where
  config : Config
  organisation : Json
  has_run_audit : Bool

/-- Models `Auditor::audit_2fa`.  No fetch is performed; a missing or
non-boolean `two_factor_requirement_enabled` field is defaulted to
`false` by `unwrap_or(false)`. -/
def audit_2fa (a : Auditor) : Auditor × AuditResult Unit :=
  if !a.config.enforces_2fa then (a, Except.ok ())
  else
    let a := { a with has_run_audit := true }
    let enabled := ((a.organisation.get "two_factor_requirement_enabled").bind
      Json.asBool).getD false
    if enabled then (a, Except.ok ())
    else (a, Except.error (Error.audit AuditError.disabled2Fa))

/-- The predicate `|e| e.get("type") .. == "PushEvent"` of
`audit_admin_commit_activity`. -/
def isPushEvent (e : Json) : Bool :=
  (((e.get "type").bind Json.asStr).map (fun t => t == "PushEvent")).getD false

/-- One admin's loop body in `audit_admin_commit_activity`: read the
member's `events_url`, substitute the `{/privacy}` template, and `find`
the first push event in the feed. -/
def memberFind (fetch : String → FetchOutcome) (fuel : Nat) (m : Json) :
    Option (AuditResult (Option Json)) :=
  match (m.get "events_url").bind Json.asStr with
  | none => some (Except.error Error.missingGitHubData)
  | some eu =>
    match find fetch isPushEvent fuel (strReplace eu "{/privacy}" "") with
    | none => none
    | some (r, _) => some r

/-- The `for member in members` loop of `audit_admin_commit_activity`,
returning the `found_members` list (the first error aborts the loop). -/
def collectPushers (fetch : String → FetchOutcome) (fuel : Nat) :
    List Json → Option (AuditResult (List Json))
  | [] => some (Except.ok [])
  | m :: rest =>
    match memberFind fetch fuel m with
    | none => none
    | some (Except.error e) => some (Except.error e)
    | some (Except.ok r) =>
      match collectPushers fetch fuel rest with
      | none => none
      | some (Except.error e) => some (Except.error e)
      | some (Except.ok tail) =>
        some (Except.ok (if r.isSome then m :: tail else tail))

/-- Models `Auditor::audit_admin_commit_activity`. -/
def audit_admin_commit_activity (fetch : String → FetchOutcome) (fuel : Nat)
    (a : Auditor) : Option (Auditor × AuditResult Unit) :=
  if !a.config.admins_have_no_commit_activity then some (a, Except.ok ())
  else
    let a := { a with has_run_audit := true }
    match (a.organisation.get "members_url").bind Json.asStr with
    | none => some (a, Except.error Error.missingGitHubData)
    | some mu =>
      match get_all fetch fuel (strReplace mu "{/member}" "?role=admin") with
      | none => none
      | some (Except.error e) => some (a, Except.error e)
      | some (Except.ok members) =>
        match collectPushers fetch fuel members with
        | none => none
        | some (Except.error e) => some (a, Except.error e)
        | some (Except.ok found) =>
          if found.isEmpty then some (a, Except.ok ())
          else some (a, Except.error (Error.audit (AuditError.adminsHaveCommits found)))

/-- The predicate `|r| r.get("name") == "master"` of
`audit_all_master_branches_are_protected`. -/
def isMasterBranch (r : Json) : Bool :=
  ((r.get "name").map (fun n => n.isStrEq "master")).getD false

/-- The `is_unprotected` computation: a repository's master branch is
unprotected when `find` returned nothing or when the found branch has
no boolean `protected` field or a `false` one. -/
def isUnprotected (master : Option Json) : Bool :=
  ((master.bind (fun b => (b.get "protected").bind Json.asBool)).map
    (fun b => !b)).getD true

/-- One repository's loop body in
`audit_all_master_branches_are_protected`: read `branches_url`,
substitute the `{/branch}` template with the unprotected filter, and
`find` the master branch. -/
def repoFind (fetch : String → FetchOutcome) (fuel : Nat) (repo : Json) :
    Option (AuditResult (Option Json)) :=
  match (repo.get "branches_url").bind Json.asStr with
  | none => some (Except.error Error.missingGitHubData)
  | some bu =>
    match find fetch isMasterBranch fuel (strReplace bu "{/branch}" "?protected=false") with
    | none => none
    | some (r, _) => some r

/-- The `for repo in repos` loop of
`audit_all_master_branches_are_protected`, returning the
`unprotected_repos` list. -/
def collectUnprotected (fetch : String → FetchOutcome) (fuel : Nat) :
    List Json → Option (AuditResult (List Json))
  | [] => some (Except.ok [])
  | repo :: rest =>
    match repoFind fetch fuel repo with
    | none => none
    | some (Except.error e) => some (Except.error e)
    | some (Except.ok master) =>
      match collectUnprotected fetch fuel rest with
      | none => none
      | some (Except.error e) => some (Except.error e)
      | some (Except.ok tail) =>
        some (Except.ok (if isUnprotected master then repo :: tail else tail))

/-- Models `Auditor::audit_all_master_branches_are_protected`. -/
def audit_all_master_branches_are_protected (fetch : String → FetchOutcome)
    (fuel : Nat) (a : Auditor) : Option (Auditor × AuditResult Unit) :=
  if !a.config.all_repos_master_is_protected then some (a, Except.ok ())
  else
    let a := { a with has_run_audit := true }
    match (a.organisation.get "repos_url").bind Json.asStr with
    | none => some (a, Except.error Error.missingGitHubData)
    | some ru =>
      match get_all fetch fuel ru with
      | none => none
      | some (Except.error e) => some (a, Except.error e)
      | some (Except.ok repos) =>
        match collectUnprotected fetch fuel repos with
        | none => none
        | some (Except.error e) => some (a, Except.error e)
        | some (Except.ok unprot) =>
          if unprot.isEmpty then some (a, Except.ok ())
          else some (a, Except.error (Error.audit (AuditError.unProtectedMasterBranches unprot)))

/-- The `try_and_collect_errors!` macro: push the error of a failed
check onto the error vector, keep the vector unchanged on success. -/
def pushIfErr (errors : List Error) : AuditResult Unit → List Error
  | Except.ok _ => errors
  | Except.error e => errors ++ [e]

/-- Models `Auditor::audit`: reset `has_run_audit`, run the three
checks in order collecting each failure, synthesize `NoAuditsRan` when
no check marked itself as run, and return `Ok` exactly when the error
vector is empty. -/
def audit (fetch : String → FetchOutcome) (fuel : Nat) (a : Auditor) :
    Option (Auditor × Except (List Error) Unit) :=
  let a0 := { a with has_run_audit := false }
  let p1 := audit_2fa a0
  let errors1 := pushIfErr [] p1.2
  match audit_admin_commit_activity fetch fuel p1.1 with
  | none => none
  | some p2 =>
    let errors2 := pushIfErr errors1 p2.2
    match audit_all_master_branches_are_protected fetch fuel p2.1 with
    | none => none
    | some p3 =>
      let errors3 := pushIfErr errors2 p3.2
      let errors4 :=
        if !p3.1.has_run_audit then errors3 ++ [Error.audit AuditError.noAuditsRan]
        else errors3
      some (p3.1, if errors4.isEmpty then Except.ok () else Except.error errors4)

/-- Models `Auditor::has_run`. -/
def Auditor.hasRun (a : Auditor) : Bool :=
  a.has_run_audit

/-! ### Page chains

A finite paginated resource is described by a list of `(url, items)`
pages, each page's link metadata pointing at the next page's URL and
the last page carrying no decodable `next` link (absent or malformed —
the code treats both as end of pagination). -/

/-- URL of the first page of a chain, if any. -/
def chainStart (pgs : List (String × List Json)) : Option String :=
  pgs.head?.map Prod.fst

/-- The world `fetch` serves the page list `pgs` as a linked chain:
each page responds with its item array and link metadata decoding to
the next page's URL (so the metadata after the last page decodes to
nothing — absent or malformed). -/
def isChain (fetch : String → FetchOutcome) : List (String × List Json) → Prop
  | [] => True
  | (u, items) :: rest =>
    (∃ meta, decodeNext meta = chainStart rest ∧
      fetch u = .success meta (some (.arr items))) ∧ isChain fetch rest

/-- Specification-side description of `findFirst` over a page
sequence, written from the spec's words: scan pages in order, within a
page in order, stop at the first match; the second component counts
the pages inspected. -/
def specFindFirst (pred : Json → Bool) : List (List Json) → Option Json × Nat
  | [] => (none, 0)
  | pg :: rest =>
    match pg.find? pred with
    | some item => (some item, 1)
    | none => ((specFindFirst pred rest).1, (specFindFirst pred rest).2 + 1)

theorem findAux_chain (fetch : String → FetchOutcome) (pred : Json → Bool) :
    ∀ (pgs : List (String × List Json)) (fuel : Nat),
      isChain fetch pgs → pgs.length ≤ fuel →
      findAux fetch pred fuel (chainStart pgs) =
        some (Except.ok (specFindFirst pred (pgs.map Prod.snd)).1,
          (specFindFirst pred (pgs.map Prod.snd)).2) := by
  intro pgs
  induction pgs with
  | nil =>
    intro fuel _ _
    simp [chainStart, specFindFirst, findAux]
  | cons hd rest ih =>
    obtain ⟨u, items⟩ := hd
    intro fuel hchain hfuel
    obtain ⟨⟨meta, hmeta, hfetch⟩, hrest⟩ := hchain
    cases fuel with
    | zero => simp at hfuel
    | succ f =>
      have hstart : chainStart ((u, items) :: rest) = some u := rfl
      rw [hstart]
      simp only [findAux, hfetch, hmeta, Json.asArray]
      cases hfind : items.find? pred with
      | some item =>
        simp [specFindFirst, hfind]
      | none =>
        have hf : rest.length ≤ f := by
          simpa [Nat.succ_le_succ_iff] using hfuel
        rw [ih f hrest hf]
        simp [specFindFirst, hfind]

theorem getAllAux_chain (fetch : String → FetchOutcome) :
    ∀ (pgs : List (String × List Json)) (fuel : Nat) (acc : List Json),
      isChain fetch pgs → pgs.length ≤ fuel →
      getAllAux fetch fuel (chainStart pgs) acc =
        some (Except.ok (acc ++ (pgs.map Prod.snd).flatten)) := by
  intro pgs
  induction pgs with
  | nil =>
    intro fuel acc _ _
    simp [chainStart, getAllAux]
  | cons hd rest ih =>
    obtain ⟨u, items⟩ := hd
    intro fuel acc hchain hfuel
    obtain ⟨⟨meta, hmeta, hfetch⟩, hrest⟩ := hchain
    cases fuel with
    | zero => simp at hfuel
    | succ f =>
      have hstart : chainStart ((u, items) :: rest) = some u := rfl
      rw [hstart]
      simp only [getAllAux, hfetch, hmeta, Json.asArray]
      have hf : rest.length ≤ f := by
        simpa [Nat.succ_le_succ_iff] using hfuel
      rw [ih f (acc ++ items) hrest hf]
      simp

/-- C2: over any finite page chain, `find` returns the first item (in
page order, then within-page order) satisfying the predicate, with
exactly as many page fetches as the index of the page containing that
item, and returns `Ok(None)` — not an error — with every page fetched
when no item matches. -/
theorem find_first_match (fetch : String → FetchOutcome) (pred : Json → Bool)
    (fuel : Nat) (pgs : List (String × List Json)) (u0 : String)
    (hstart : chainStart pgs = some u0)
    (hchain : isChain fetch pgs) (hfuel : pgs.length ≤ fuel) :
    find fetch pred fuel u0 =
      some (Except.ok (specFindFirst pred (pgs.map Prod.snd)).1,
        (specFindFirst pred (pgs.map Prod.snd)).2) := by
  have h := findAux_chain fetch pred pgs fuel hchain hfuel
  rw [hstart] at h
  exact h

/-- C3: over any finite page chain — the final page's link metadata
being absent or malformed, both decoding to "no next page" — `get_all`
returns the concatenation of every page's items in page order with
within-page order preserved, and ends the loop normally rather than
erroring. -/
theorem get_all_concatenates (fetch : String → FetchOutcome)
    (fuel : Nat) (pgs : List (String × List Json)) (u0 : String)
    (hstart : chainStart pgs = some u0)
    (hchain : isChain fetch pgs) (hfuel : pgs.length ≤ fuel) :
    get_all fetch fuel u0 = some (Except.ok (pgs.map Prod.snd).flatten) := by
  have h := getAllAux_chain fetch pgs fuel [] hchain hfuel
  rw [hstart] at h
  simpa using h

/-- Concrete three-page world shared by the pagination witnesses:
pages of sizes 2, 2 and 1, next-links on pages 1 and 2, and a
malformed link header on page 3. -/
def pagesW : List (String × List Json) :=
  [("p1", [Json.str "a", Json.str "b"]),
   ("p2", [Json.str "c", Json.str "d"]),
   ("p3", [Json.str "e"])]

/-- The world serving `pagesW`. -/
def fetchW : String → FetchOutcome := fun u =>
  if u == "p1" then .success (.nextLink "p2") (some (.arr [Json.str "a", Json.str "b"]))
  else if u == "p2" then .success (.nextLink "p3") (some (.arr [Json.str "c", Json.str "d"]))
  else if u == "p3" then .success .malformed (some (.arr [Json.str "e"]))
  else .transport

/-- A predicate matching only the first item of page 2 of `pagesW`. -/
def predW (j : Json) : Bool := j.isStrEq "c"

theorem find_first_match_witness :
    chainStart pagesW = some "p1" ∧ isChain fetchW pagesW ∧ pagesW.length ≤ 3 ∧
    find fetchW predW 3 "p1" = some (Except.ok (some (Json.str "c")), 2) := by
  have hstart : chainStart pagesW = some "p1" := rfl
  have hchain : isChain fetchW pagesW :=
    ⟨⟨.nextLink "p2", rfl, rfl⟩, ⟨.nextLink "p3", rfl, rfl⟩,
      ⟨.malformed, rfl, rfl⟩, trivial⟩
  have hfuel : pagesW.length ≤ 3 := by decide
  exact ⟨hstart, hchain, hfuel,
    (find_first_match fetchW predW 3 pagesW "p1" hstart hchain hfuel).trans rfl⟩

theorem get_all_concatenates_witness :
    chainStart pagesW = some "p1" ∧ isChain fetchW pagesW ∧ pagesW.length ≤ 3 ∧
    get_all fetchW 3 "p1" = some (Except.ok
      [Json.str "a", Json.str "b", Json.str "c", Json.str "d", Json.str "e"]) := by
  have hstart : chainStart pagesW = some "p1" := rfl
  have hchain : isChain fetchW pagesW :=
    ⟨⟨.nextLink "p2", rfl, rfl⟩, ⟨.nextLink "p3", rfl, rfl⟩,
      ⟨.malformed, rfl, rfl⟩, trivial⟩
  have hfuel : pagesW.length ≤ 3 := by decide
  exact ⟨hstart, hchain, hfuel,
    (get_all_concatenates fetchW 3 pagesW "p1" hstart hchain hfuel).trans rfl⟩

/-! ### Transport failures mid-pagination -/

/-- First URL the loop will request when the good pages `pgs` are
followed by the failing URL `ubad`. -/
def chainStartTo (ubad : String) (pgs : List (String × List Json)) : String :=
  match pgs with
  | [] => ubad
  | (u, _) :: _ => u

/-- The world serves the pages `pgs` as a linked chain whose last link
points at `ubad`. -/
def isChainTo (fetch : String → FetchOutcome) (ubad : String) :
    List (String × List Json) → Prop
  | [] => True
  | (u, items) :: rest =>
    fetch u = .success (.nextLink (chainStartTo ubad rest)) (some (.arr items)) ∧
      isChainTo fetch ubad rest

theorem findAux_chainTo (fetch : String → FetchOutcome) (pred : Json → Bool)
    (ubad : String) (hbad : fetch ubad = .transport) :
    ∀ (pgs : List (String × List Json)) (fuel : Nat),
      isChainTo fetch ubad pgs → pgs.length < fuel →
      (∀ p ∈ pgs, p.2.find? pred = none) →
      findAux fetch pred fuel (some (chainStartTo ubad pgs)) =
        some (Except.error Error.http, pgs.length + 1) := by
  intro pgs
  induction pgs with
  | nil =>
    intro fuel _ hfuel _
    cases fuel with
    | zero => simp at hfuel
    | succ f => simp [chainStartTo, findAux, hbad]
  | cons hd rest ih =>
    obtain ⟨u, items⟩ := hd
    intro fuel hchain hfuel hnomatch
    obtain ⟨hfetch, hrest⟩ := hchain
    cases fuel with
    | zero => simp at hfuel
    | succ f =>
      have hhd : items.find? pred = none := hnomatch (u, items) (by simp)
      have hf : rest.length < f := by
        simp only [List.length_cons] at hfuel
        omega
      have hstart : chainStartTo ubad ((u, items) :: rest) = u := rfl
      rw [hstart]
      simp only [findAux, hfetch, Json.asArray, decodeNext, Option.bind, hhd]
      rw [ih f hrest hf (fun p hp => hnomatch p (by simp [hp]))]
      simp

theorem getAllAux_chainTo (fetch : String → FetchOutcome)
    (ubad : String) (hbad : fetch ubad = .transport) :
    ∀ (pgs : List (String × List Json)) (fuel : Nat) (acc : List Json),
      isChainTo fetch ubad pgs → pgs.length < fuel →
      getAllAux fetch fuel (some (chainStartTo ubad pgs)) acc =
        some (Except.error Error.http) := by
  intro pgs
  induction pgs with
  | nil =>
    intro fuel acc _ hfuel
    cases fuel with
    | zero => simp at hfuel
    | succ f => simp [chainStartTo, getAllAux, hbad]
  | cons hd rest ih =>
    obtain ⟨u, items⟩ := hd
    intro fuel acc hchain hfuel
    obtain ⟨hfetch, hrest⟩ := hchain
    cases fuel with
    | zero => simp at hfuel
    | succ f =>
      have hf : rest.length < f := by
        simp only [List.length_cons] at hfuel
        omega
      have hstart : chainStartTo ubad ((u, items) :: rest) = u := rfl
      rw [hstart]
      simp only [getAllAux, hfetch, Json.asArray, decodeNext]
      exact ih f (acc ++ items) hrest hf

/-- C8: when any page request of the chain fails at the transport
level (any failure the client surfaces, a non-2xx status included),
both `find` — provided no earlier page already produced a match — and
`get_all` return the `Http` error for the whole fetch, and the items
of the pages already fetched are discarded: the result carries the
bare error, never a partial item list. -/
theorem transport_error_aborts_fetch (fetch : String → FetchOutcome)
    (pred : Json → Bool) (pgs : List (String × List Json)) (ubad : String)
    (fuel : Nat) (hchain : isChainTo fetch ubad pgs)
    (hbad : fetch ubad = .transport) (hfuel : pgs.length < fuel)
    (hnomatch : ∀ p ∈ pgs, p.2.find? pred = none) :
    find fetch pred fuel (chainStartTo ubad pgs) =
      some (Except.error Error.http, pgs.length + 1) ∧
    get_all fetch fuel (chainStartTo ubad pgs) = some (Except.error Error.http) := by
  constructor
  · exact findAux_chainTo fetch pred ubad hbad pgs fuel hchain hfuel hnomatch
  · exact getAllAux_chainTo fetch ubad hbad pgs fuel [] hchain hfuel

/-- World for the transport-failure witness: one good page linking to
a URL on which the client fails. -/
def fetchBadW : String → FetchOutcome := fun u =>
  if u == "q1" then .success (.nextLink "q2") (some (.arr [Json.str "a"]))
  else .transport

theorem transport_error_aborts_fetch_witness :
    isChainTo fetchBadW "q2" [("q1", [Json.str "a"])] ∧
    fetchBadW "q2" = FetchOutcome.transport ∧
    (∀ p ∈ [(("q1" : String), [Json.str "a"])], p.2.find? predW = none) ∧
    find fetchBadW predW 3 "q1" = some (Except.error Error.http, 2) ∧
    get_all fetchBadW 3 "q1" = some (Except.error Error.http) := by
  have hchain : isChainTo fetchBadW "q2" [("q1", [Json.str "a"])] := ⟨rfl, trivial⟩
  have hbad : fetchBadW "q2" = FetchOutcome.transport := rfl
  have hnomatch : ∀ p ∈ [(("q1" : String), [Json.str "a"])], p.2.find? predW = none := by
    intro p hp
    simp only [List.mem_singleton] at hp
    subst hp
    rfl
  have h := transport_error_aborts_fetch fetchBadW predW [("q1", [Json.str "a"])] "q2" 3
    hchain hbad (by decide) hnomatch
  exact ⟨hchain, hbad, hnomatch, h.1, h.2⟩

/-- C9: on a response whose body decodes to valid JSON that is not an
array, `find` raises no error — it treats the page as containing no
items, continuing with the decoded next link and returning `Ok(None)`
when that link is absent — while `get_all` on the same response fails
with `MissingGitHubData`: the two pagination strategies disagree on
malformed list bodies. -/
theorem nonarray_body_divergence (fetch : String → FetchOutcome)
    (pred : Json → Bool) (fuel : Nat) (url : String) (meta : LinkMeta)
    (body : Json) (acc : List Json)
    (hfetch : fetch url = .success meta (some body))
    (hna : body.asArray = none) :
    findAux fetch pred (fuel + 1) (some url) =
      (findAux fetch pred fuel (decodeNext meta)).map (fun p => (p.1, p.2 + 1)) ∧
    (decodeNext meta = none →
      find fetch pred (fuel + 1) url = some (Except.ok none, 1)) ∧
    getAllAux fetch (fuel + 1) (some url) acc =
      some (Except.error Error.missingGitHubData) := by
  refine ⟨?_, ?_, ?_⟩
  · simp [findAux, hfetch, hna]
  · intro hnone
    simp [find, findAux, hfetch, hna, hnone]
  · simp [getAllAux, hfetch, hna]

/-- World for the non-array-body witness: a single page whose body is
a JSON object (as a GitHub error body would be), with no next link. -/
def fetchObjW : String → FetchOutcome := fun _ =>
  .success .absent (some (Json.obj [("message", Json.str "Not Found")]))

theorem nonarray_body_divergence_witness :
    fetchObjW "r1" = FetchOutcome.success LinkMeta.absent
      (some (Json.obj [("message", Json.str "Not Found")])) ∧
    (Json.obj [("message", Json.str "Not Found")]).asArray = none ∧
    find fetchObjW predW 1 "r1" = some (Except.ok none, 1) ∧
    getAllAux fetchObjW 1 (some "r1") [] =
      some (Except.error Error.missingGitHubData) := by
  have h := nonarray_body_divergence fetchObjW predW 0 "r1" LinkMeta.absent
    (Json.obj [("message", Json.str "Not Found")]) [] rfl rfl
  exact ⟨rfl, rfl, h.2.1 rfl, h.2.2⟩

/-- C4: with every audit toggle disabled, `audit` reports exactly one
error — the `NoAuditsRan` audit failure — and leaves `has_run_audit`
false. -/
theorem audit_all_toggles_disabled (fetch : String → FetchOutcome) (fuel : Nat)
    (a : Auditor)
    (h2 : a.config.enforces_2fa = false)
    (ha : a.config.admins_have_no_commit_activity = false)
    (hb : a.config.all_repos_master_is_protected = false) :
    audit fetch fuel a =
      some ({ a with has_run_audit := false },
        Except.error [Error.audit AuditError.noAuditsRan]) := by
  simp [audit, audit_2fa, audit_admin_commit_activity,
    audit_all_master_branches_are_protected, h2, ha, hb, pushIfErr]

/-- Configuration with every toggle off, for the C4 witness. -/
def configOffW : Config :=
  { enforces_2fa := false
    admins_have_no_commit_activity := false
    all_repos_master_is_protected := false
    installed_app_whitelist := none
    admin_whitelist := none
    member_whitelist := none }

/-- Auditor under the all-off configuration, for the C4 witness. -/
def auditorOffW : Auditor :=
  { config := configOffW
    organisation := Json.obj []
    has_run_audit := true }

theorem audit_all_toggles_disabled_witness :
    configOffW.enforces_2fa = false ∧
    configOffW.admins_have_no_commit_activity = false ∧
    configOffW.all_repos_master_is_protected = false ∧
    audit fetchW 3 auditorOffW =
      some ({ auditorOffW with has_run_audit := false },
        Except.error [Error.audit AuditError.noAuditsRan]) :=
  ⟨rfl, rfl, rfl, audit_all_toggles_disabled fetchW 3 auditorOffW rfl rfl rfl⟩

/-- One report entry per check outcome: nothing on success, the single
error on failure (spec-side description of the collected report). -/
def errList : AuditResult Unit → List Error
  | Except.ok _ => []
  | Except.error e => [e]

/-- C1: `audit` always executes the checks in the fixed order 2FA,
admin-commit-activity, branch-protection, threading the state through
all three regardless of earlier outcomes, and its report is the
in-order concatenation of one entry per failed check (plus the
synthesized `NoAuditsRan` when no check marked itself as run): no
earlier failure ever suppresses a later check's entry, and a check
that fails with a non-audit error (transport, decode, missing data)
contributes its entry the same way. -/
theorem audit_order_and_no_suppression (fetch : String → FetchOutcome)
    (fuel : Nat) (a : Auditor) :
    audit fetch fuel a =
      match audit_admin_commit_activity fetch fuel
          (audit_2fa { a with has_run_audit := false }).1 with
      | none => none
      | some p2 =>
        match audit_all_master_branches_are_protected fetch fuel p2.1 with
        | none => none
        | some p3 =>
          let report := errList (audit_2fa { a with has_run_audit := false }).2 ++
            errList p2.2 ++ errList p3.2 ++
            (if p3.1.has_run_audit then [] else [Error.audit AuditError.noAuditsRan])
          some (p3.1, if report.isEmpty then Except.ok () else Except.error report) := by
  have hp : ∀ (errs : List Error) (r : AuditResult Unit),
      pushIfErr errs r = errs ++ errList r := by
    intro errs r
    cases r <;> simp [pushIfErr, errList]
  simp only [audit]
  cases h2 : audit_admin_commit_activity fetch fuel
      (audit_2fa { a with has_run_audit := false }).1 with
  | none => rfl
  | some p2 =>
    simp only []
    cases h3 : audit_all_master_branches_are_protected fetch fuel p2.1 with
    | none => rfl
    | some p3 =>
      simp only [hp, List.nil_append, List.append_assoc]
      cases hr : p3.1.has_run_audit with
      | false => simp [hr, List.append_assoc]
      | true =>
        simp [hr]
        rw [List.append_nil]

/-! ### Admin commit activity (C6) -/

/-- Specification-side predicate, from the claim's words: the admins
for which `find` located at least one push event in their feed. -/
def specPusherFilter (fetch : String → FetchOutcome) (fuel : Nat) (m : Json) : Bool :=
  match memberFind fetch fuel m with
  | some (Except.ok r) => r.isSome
  | _ => false

theorem collectPushers_filter (fetch : String → FetchOutcome) (fuel : Nat) :
    ∀ (members : List Json),
      (∀ m ∈ members, ∃ r, memberFind fetch fuel m = some (Except.ok r)) →
      collectPushers fetch fuel members =
        some (Except.ok (members.filter (specPusherFilter fetch fuel))) := by
  intro members
  induction members with
  | nil => intro _; rfl
  | cons m rest ih =>
    intro h
    obtain ⟨r, hr⟩ := h m (by simp)
    have hrest := ih (fun x hx => h x (by simp [hx]))
    simp only [collectPushers, hr, hrest, List.filter_cons, specPusherFilter]

/-- C6: whenever the admin listing and every admin's feed lookup
succeed, the admin-commit-activity check passes exactly when no admin
has a push event located by `find`, and on failure its evidence is
exactly the admins for which `find` located a push event — an admin
with no such event never appears. -/
theorem admin_commit_activity_evidence (fetch : String → FetchOutcome)
    (fuel : Nat) (a : Auditor) (mu : String) (members : List Json)
    (htoggle : a.config.admins_have_no_commit_activity = true)
    (hurl : (a.organisation.get "members_url").bind Json.asStr = some mu)
    (hmem : get_all fetch fuel (strReplace mu "{/member}" "?role=admin") =
      some (Except.ok members))
    (hfind : ∀ m ∈ members, ∃ r, memberFind fetch fuel m = some (Except.ok r)) :
    audit_admin_commit_activity fetch fuel a =
      some ({ a with has_run_audit := true },
        if (members.filter (specPusherFilter fetch fuel)).isEmpty then Except.ok ()
        else Except.error (Error.audit (AuditError.adminsHaveCommits
          (members.filter (specPusherFilter fetch fuel))))) := by
  have hc := collectPushers_filter fetch fuel members hfind
  simp only [audit_admin_commit_activity, htoggle, Bool.not_true]
  simp only [hurl, hmem, hc]
  cases hemp : (members.filter (specPusherFilter fetch fuel)).isEmpty <;>
    simp [hemp]

/-! ### Master branch protection (C5) -/

/-- Specification-side reading of "unprotected", from the claim's
words: the master branch is absent from the unprotected listing, or is
present without a `protected` flag that is boolean `true`. -/
def specRepoUnprotected (master : Option Json) : Bool :=
  match master with
  | none => true
  | some b => !((b.get "protected").bind Json.asBool == some true)

theorem isUnprotected_eq_spec (m : Option Json) :
    isUnprotected m = specRepoUnprotected m := by
  cases m with
  | none => rfl
  | some b =>
    simp only [isUnprotected, specRepoUnprotected, Option.some_bind]
    cases h : (b.get "protected").bind Json.asBool with
    | none => simp [h]
    | some tb => cases tb <;> simp [h]

/-- Specification-side predicate over repositories: those whose `find`
against the unprotected-branch listing gives a master branch that is
absent or lacks a true `protected` flag. -/
def specUnprotFilter (fetch : String → FetchOutcome) (fuel : Nat) (r : Json) : Bool :=
  match repoFind fetch fuel r with
  | some (Except.ok m) => specRepoUnprotected m
  | _ => false

theorem collectUnprotected_filter (fetch : String → FetchOutcome) (fuel : Nat) :
    ∀ (repos : List Json),
      (∀ r ∈ repos, ∃ m, repoFind fetch fuel r = some (Except.ok m)) →
      collectUnprotected fetch fuel repos =
        some (Except.ok (repos.filter (specUnprotFilter fetch fuel))) := by
  intro repos
  induction repos with
  | nil => intro _; rfl
  | cons repo rest ih =>
    intro h
    obtain ⟨m, hm⟩ := h repo (by simp)
    have hrest := ih (fun x hx => h x (by simp [hx]))
    simp only [collectUnprotected, hm, hrest, List.filter_cons, specUnprotFilter,
      isUnprotected_eq_spec]

/-- C5: whenever the repository listing and every repository's branch
lookup succeed, the branch-protection check's evidence contains a
repository exactly when `find` over its unprotected-filtered branches
resource found no master branch (conservatively classified as
unprotected) or found one without a true `protected` flag; the check
passes exactly when that evidence list is empty. -/
theorem master_branch_protection_evidence (fetch : String → FetchOutcome)
    (fuel : Nat) (a : Auditor) (ru : String) (repos : List Json)
    (htoggle : a.config.all_repos_master_is_protected = true)
    (hurl : (a.organisation.get "repos_url").bind Json.asStr = some ru)
    (hrepos : get_all fetch fuel ru = some (Except.ok repos))
    (hfind : ∀ r ∈ repos, ∃ m, repoFind fetch fuel r = some (Except.ok m)) :
    audit_all_master_branches_are_protected fetch fuel a =
      some ({ a with has_run_audit := true },
        if (repos.filter (specUnprotFilter fetch fuel)).isEmpty then Except.ok ()
        else Except.error (Error.audit (AuditError.unProtectedMasterBranches
          (repos.filter (specUnprotFilter fetch fuel))))) := by
  have hc := collectUnprotected_filter fetch fuel repos hfind
  simp only [audit_all_master_branches_are_protected, htoggle, Bool.not_true]
  simp only [hurl, hrepos, hc]
  cases hemp : (repos.filter (specUnprotFilter fetch fuel)).isEmpty <;>
    simp [hemp]

/-- Admin with a push event in their feed, for the C6 witness. -/
def adminPushW : Json :=
  Json.obj [("login", Json.str "alice"), ("events_url", Json.str "e1{/privacy}")]

/-- Admin without a push event in their feed, for the C6 witness. -/
def adminQuietW : Json :=
  Json.obj [("login", Json.str "bob"), ("events_url", Json.str "e2{/privacy}")]

/-- World for the C6 witness: a two-admin listing, one feed containing
a push event and one containing only a watch event. -/
def fetchAdminsW : String → FetchOutcome := fun u =>
  if u == "mu?role=admin" then
    .success .absent (some (.arr [adminPushW, adminQuietW]))
  else if u == "e1" then
    .success .absent (some (.arr [Json.obj [("type", Json.str "PushEvent")]]))
  else if u == "e2" then
    .success .absent (some (.arr [Json.obj [("type", Json.str "WatchEvent")]]))
  else .transport

/-- Auditor for the C6 witness. -/
def auditorAdminsW : Auditor :=
  { config := Config.default
    organisation := Json.obj [("members_url", Json.str "mu{/member}")]
    has_run_audit := false }

theorem admin_commit_activity_evidence_witness :
    auditorAdminsW.config.admins_have_no_commit_activity = true ∧
    (auditorAdminsW.organisation.get "members_url").bind Json.asStr =
      some "mu{/member}" ∧
    get_all fetchAdminsW 2 (strReplace "mu{/member}" "{/member}" "?role=admin") =
      some (Except.ok [adminPushW, adminQuietW]) ∧
    audit_admin_commit_activity fetchAdminsW 2 auditorAdminsW =
      some ({ auditorAdminsW with has_run_audit := true },
        Except.error (Error.audit (AuditError.adminsHaveCommits [adminPushW]))) := by
  have htoggle : auditorAdminsW.config.admins_have_no_commit_activity = true := rfl
  have hurl : (auditorAdminsW.organisation.get "members_url").bind Json.asStr =
      some "mu{/member}" := rfl
  have hmem : get_all fetchAdminsW 2 (strReplace "mu{/member}" "{/member}" "?role=admin") =
      some (Except.ok [adminPushW, adminQuietW]) := rfl
  have hfind : ∀ m ∈ [adminPushW, adminQuietW],
      ∃ r, memberFind fetchAdminsW 2 m = some (Except.ok r) := by
    intro m hm
    rcases List.mem_cons.mp hm with h | hm2
    · subst h
      exact ⟨some (Json.obj [("type", Json.str "PushEvent")]), rfl⟩
    · have h2 := List.mem_singleton.mp hm2
      subst h2
      exact ⟨none, rfl⟩
  refine ⟨htoggle, hurl, hmem, ?_⟩
  exact (admin_commit_activity_evidence fetchAdminsW 2 auditorAdminsW "mu{/member}"
    [adminPushW, adminQuietW] htoggle hurl hmem hfind).trans rfl

/-- Repository whose master branch appears unprotected, for the C5
witness. -/
def repoUnprotW : Json :=
  Json.obj [("full_name", Json.str "org/r1"), ("branches_url", Json.str "b1{/branch}")]

/-- Repository whose master branch carries a true `protected` flag,
for the C5 witness. -/
def repoProtW : Json :=
  Json.obj [("full_name", Json.str "org/r2"), ("branches_url", Json.str "b2{/branch}")]

/-- World for the C5 witness: a two-repository listing, one branch
listing with an unprotected master and one with a protected master. -/
def fetchReposW : String → FetchOutcome := fun u =>
  if u == "ru" then .success .absent (some (.arr [repoUnprotW, repoProtW]))
  else if u == "b1?protected=false" then .success .absent
    (some (.arr [Json.obj [("name", Json.str "master"), ("protected", Json.bool false)]]))
  else if u == "b2?protected=false" then .success .absent
    (some (.arr [Json.obj [("name", Json.str "master"), ("protected", Json.bool true)]]))
  else .transport

/-- Auditor for the C5 witness. -/
def auditorReposW : Auditor :=
  { config := Config.default
    organisation := Json.obj [("repos_url", Json.str "ru")]
    has_run_audit := false }

theorem master_branch_protection_evidence_witness :
    auditorReposW.config.all_repos_master_is_protected = true ∧
    (auditorReposW.organisation.get "repos_url").bind Json.asStr = some "ru" ∧
    get_all fetchReposW 2 "ru" = some (Except.ok [repoUnprotW, repoProtW]) ∧
    audit_all_master_branches_are_protected fetchReposW 2 auditorReposW =
      some ({ auditorReposW with has_run_audit := true },
        Except.error (Error.audit
          (AuditError.unProtectedMasterBranches [repoUnprotW]))) := by
  have htoggle : auditorReposW.config.all_repos_master_is_protected = true := rfl
  have hurl : (auditorReposW.organisation.get "repos_url").bind Json.asStr =
      some "ru" := rfl
  have hrepos : get_all fetchReposW 2 "ru" =
      some (Except.ok [repoUnprotW, repoProtW]) := rfl
  have hfind : ∀ r ∈ [repoUnprotW, repoProtW],
      ∃ m, repoFind fetchReposW 2 r = some (Except.ok m) := by
    intro r hr
    rcases List.mem_cons.mp hr with h | hr2
    · subst h
      exact ⟨some (Json.obj [("name", Json.str "master"),
        ("protected", Json.bool false)]), rfl⟩
    · have h2 := List.mem_singleton.mp hr2
      subst h2
      exact ⟨some (Json.obj [("name", Json.str "master"),
        ("protected", Json.bool true)]), rfl⟩
  refine ⟨htoggle, hurl, hrepos, ?_⟩
  exact (master_branch_protection_evidence fetchReposW 2 auditorReposW "ru"
    [repoUnprotW, repoProtW] htoggle hurl hrepos hfind).trans rfl

/-! ### Missing-field behaviour (C7) -/

/-- Auditor over an empty organisation object with every toggle on,
used by the missing-field counterexample and witness. -/
def auditorEmptyOrgW : Auditor :=
  { config := Config.default
    organisation := Json.obj []
    has_run_audit := false }

/-- C7 counterexample: with the 2FA toggle enabled and the
`two_factor_requirement_enabled` field absent from the organisation,
the 2FA check fails with the silently defaulted `Disabled2Fa` audit
verdict, not with `MissingGitHubData` as the claim requires. -/
theorem missing_2fa_flag_counterexample :
    (audit_2fa auditorEmptyOrgW).2 =
      Except.error (Error.audit AuditError.disabled2Fa) ∧
    (audit_2fa auditorEmptyOrgW).2 ≠ Except.error Error.missingGitHubData := by
  refine ⟨rfl, fun h => ?_⟩
  have hne : (Except.error (Error.audit AuditError.disabled2Fa) :
      AuditResult Unit) ≠ Except.error Error.missingGitHubData := by simp
  exact hne h

/-- C7 (amended): a missing `members_url`, `repos_url`, `events_url`
or `branches_url` makes the respective check fail with
`MissingGitHubData` while the sibling checks still run to completion —
the full run collects one entry per check — but the two-factor flag is
the exception: when it is absent or non-boolean the 2FA check defaults
it to `false` and fails with the `Disabled2Fa` audit verdict, never
with the missing-data error. -/
theorem missing_field_check_scoped (fetch : String → FetchOutcome) (fuel : Nat)
    (a : Auditor) (m r : Json) (rest : List Json)
    (h2 : a.config.enforces_2fa = true)
    (hat : a.config.admins_have_no_commit_activity = true)
    (hbt : a.config.all_repos_master_is_protected = true)
    (hflag : (a.organisation.get "two_factor_requirement_enabled").bind
      Json.asBool = none)
    (hmu : (a.organisation.get "members_url").bind Json.asStr = none)
    (hru : (a.organisation.get "repos_url").bind Json.asStr = none)
    (hev : (m.get "events_url").bind Json.asStr = none)
    (hbu : (r.get "branches_url").bind Json.asStr = none) :
    (audit_2fa a).2 = Except.error (Error.audit AuditError.disabled2Fa) ∧
    audit_admin_commit_activity fetch fuel a =
      some ({ a with has_run_audit := true }, Except.error Error.missingGitHubData) ∧
    audit_all_master_branches_are_protected fetch fuel a =
      some ({ a with has_run_audit := true }, Except.error Error.missingGitHubData) ∧
    collectPushers fetch fuel (m :: rest) =
      some (Except.error Error.missingGitHubData) ∧
    collectUnprotected fetch fuel (r :: rest) =
      some (Except.error Error.missingGitHubData) ∧
    audit fetch fuel a =
      some ({ a with has_run_audit := true },
        Except.error [Error.audit AuditError.disabled2Fa,
          Error.missingGitHubData, Error.missingGitHubData]) := by
  refine ⟨?_, ?_, ?_, ?_, ?_, ?_⟩
  · simp [audit_2fa, h2, hflag]
  · simp [audit_admin_commit_activity, hat, hmu]
  · simp [audit_all_master_branches_are_protected, hbt, hru]
  · simp [collectPushers, memberFind, hev]
  · simp [collectUnprotected, repoFind, hbu]
  · simp [audit, audit_2fa, audit_admin_commit_activity,
      audit_all_master_branches_are_protected, h2, hat, hbt, hflag, hmu, hru,
      pushIfErr]

theorem missing_field_check_scoped_witness :
    auditorEmptyOrgW.config.enforces_2fa = true ∧
    auditorEmptyOrgW.config.admins_have_no_commit_activity = true ∧
    auditorEmptyOrgW.config.all_repos_master_is_protected = true ∧
    (auditorEmptyOrgW.organisation.get "two_factor_requirement_enabled").bind
      Json.asBool = none ∧
    (auditorEmptyOrgW.organisation.get "members_url").bind Json.asStr = none ∧
    (auditorEmptyOrgW.organisation.get "repos_url").bind Json.asStr = none ∧
    audit fetchW 1 auditorEmptyOrgW =
      some ({ auditorEmptyOrgW with has_run_audit := true },
        Except.error [Error.audit AuditError.disabled2Fa,
          Error.missingGitHubData, Error.missingGitHubData]) := by
  have h := missing_field_check_scoped fetchW 1 auditorEmptyOrgW
    (Json.obj []) (Json.obj []) [] rfl rfl rfl rfl rfl rfl rfl rfl
  exact ⟨rfl, rfl, rfl, rfl, rfl, rfl, h.2.2.2.2.2⟩

/-! ### Error classification, towards C10 -/

theorem findAux_error_is_http (fetch : String → FetchOutcome) (pred : Json → Bool) :
    ∀ (fuel : Nat) (next : Option String) (e : Error) (n : Nat),
      findAux fetch pred fuel next = some (Except.error e, n) → e = Error.http := by
  intro fuel
  induction fuel with
  | zero =>
    intro next e n h
    cases next <;> simp [findAux] at h
  | succ f ih =>
    intro next e n h
    cases next with
    | none => simp [findAux] at h
    | some u =>
      simp only [findAux] at h
      cases hf : fetch u <;> rw [hf] at h
      · simp at h
        exact h.1.symm
      · rename_i meta body
        cases body with
        | none =>
          simp at h
          exact h.1.symm
        | some j =>
          simp only at h
          cases hj : j.asArray.bind (List.find? pred) <;> rw [hj] at h
          · simp only [Option.map_eq_some'] at h
            obtain ⟨p, hp, hpe⟩ := h
            have hfst : p.1 = Except.error e := congrArg Prod.fst hpe
            obtain ⟨r1, n1⟩ := p
            simp only at hfst
            subst hfst
            exact ih (decodeNext meta) e n1 hp
          · simp at h

theorem getAllAux_error_cases (fetch : String → FetchOutcome) :
    ∀ (fuel : Nat) (next : Option String) (acc : List Json) (e : Error),
      getAllAux fetch fuel next acc = some (Except.error e) →
      e = Error.http ∨ e = Error.missingGitHubData := by
  intro fuel
  induction fuel with
  | zero =>
    intro next acc e h
    cases next <;> simp [getAllAux] at h
  | succ f ih =>
    intro next acc e h
    cases next with
    | none => simp [getAllAux] at h
    | some u =>
      simp only [getAllAux] at h
      cases hf : fetch u <;> rw [hf] at h
      · simp at h
        exact Or.inl h.symm
      · rename_i meta body
        cases body with
        | none =>
          simp at h
          exact Or.inl h.symm
        | some j =>
          simp only at h
          cases hj : j.asArray <;> rw [hj] at h
          · simp at h
            exact Or.inr h.symm
          · exact ih (decodeNext meta) _ e h

theorem memberFind_error_cases (fetch : String → FetchOutcome) (fuel : Nat)
    (m : Json) (e : Error)
    (h : memberFind fetch fuel m = some (Except.error e)) :
    e = Error.http ∨ e = Error.missingGitHubData := by
  unfold memberFind at h
  cases hu : (m.get "events_url").bind Json.asStr <;> simp only [hu] at h
  · simp at h
    exact Or.inr h.symm
  · rename_i eu
    cases hfa : find fetch isPushEvent fuel (strReplace eu "{/privacy}" "") with
    | none => rw [hfa] at h; simp at h
    | some p =>
      rw [hfa] at h
      simp only [Option.some.injEq] at h
      obtain ⟨r, n⟩ := p
      simp only at h
      subst h
      exact Or.inl (findAux_error_is_http fetch isPushEvent fuel _ e n hfa)

theorem collectPushers_error_cases (fetch : String → FetchOutcome) (fuel : Nat) :
    ∀ (members : List Json) (e : Error),
      collectPushers fetch fuel members = some (Except.error e) →
      e = Error.http ∨ e = Error.missingGitHubData := by
  intro members
  induction members with
  | nil => intro e h; simp [collectPushers] at h
  | cons m rest ih =>
    intro e h
    simp only [collectPushers] at h
    cases hm : memberFind fetch fuel m <;> rw [hm] at h
    · simp at h
    · rename_i r0
      cases r0 with
      | error e0 =>
        simp at h
        exact h ▸ memberFind_error_cases fetch fuel m e0 hm
      | ok r =>
        cases hrest : collectPushers fetch fuel rest <;> rw [hrest] at h
        · simp at h
        · rename_i t0
          cases t0 with
          | error e1 =>
            simp at h
            exact h ▸ ih e1 hrest
          | ok tail => simp at h

theorem repoFind_error_cases (fetch : String → FetchOutcome) (fuel : Nat)
    (r : Json) (e : Error)
    (h : repoFind fetch fuel r = some (Except.error e)) :
    e = Error.http ∨ e = Error.missingGitHubData := by
  unfold repoFind at h
  cases hu : (r.get "branches_url").bind Json.asStr <;> simp only [hu] at h
  · simp at h
    exact Or.inr h.symm
  · rename_i bu
    cases hfa : find fetch isMasterBranch fuel
        (strReplace bu "{/branch}" "?protected=false") with
    | none => rw [hfa] at h; simp at h
    | some p =>
      rw [hfa] at h
      simp only [Option.some.injEq] at h
      obtain ⟨r0, n⟩ := p
      simp only at h
      subst h
      exact Or.inl (findAux_error_is_http fetch isMasterBranch fuel _ e n hfa)

theorem collectUnprotected_error_cases (fetch : String → FetchOutcome) (fuel : Nat) :
    ∀ (repos : List Json) (e : Error),
      collectUnprotected fetch fuel repos = some (Except.error e) →
      e = Error.http ∨ e = Error.missingGitHubData := by
  intro repos
  induction repos with
  | nil => intro e h; simp [collectUnprotected] at h
  | cons r rest ih =>
    intro e h
    simp only [collectUnprotected] at h
    cases hm : repoFind fetch fuel r <;> rw [hm] at h
    · simp at h
    · rename_i r0
      cases r0 with
      | error e0 =>
        simp at h
        exact h ▸ repoFind_error_cases fetch fuel r e0 hm
      | ok master =>
        cases hrest : collectUnprotected fetch fuel rest <;> rw [hrest] at h
        · simp at h
        · rename_i t0
          cases t0 with
          | error e1 =>
            simp at h
            exact h ▸ ih e1 hrest
          | ok tail => simp at h

theorem audit_2fa_marks (a : Auditor) (h : a.config.enforces_2fa = true) :
    (audit_2fa a).1 = { a with has_run_audit := true } := by
  unfold audit_2fa
  simp only [h, Bool.not_true, Bool.false_eq_true, if_false]
  split <;> rfl

theorem audit_2fa_error_kind (a : Auditor) (e : Error)
    (h : (audit_2fa a).2 = Except.error e) :
    e = Error.audit AuditError.disabled2Fa := by
  unfold audit_2fa at h
  split at h
  · simp at h
  · dsimp only at h
    split at h
    · simp at h
    · simp at h
      exact h.symm

theorem audit_admin_commit_activity_state (fetch : String → FetchOutcome)
    (fuel : Nat) (a : Auditor) (p : Auditor × AuditResult Unit)
    (h : audit_admin_commit_activity fetch fuel a = some p) :
    p.1 = a ∨ p.1 = { a with has_run_audit := true } := by
  unfold audit_admin_commit_activity at h
  split at h
  · exact Or.inl (by rw [← Option.some.inj h])
  · dsimp only at h
    refine Or.inr ?_
    split at h
    · rw [← Option.some.inj h]
    · split at h
      · exact absurd h (by simp)
      · rw [← Option.some.inj h]
      · split at h
        · exact absurd h (by simp)
        · rw [← Option.some.inj h]
        · split at h
          · rw [← Option.some.inj h]
          · rw [← Option.some.inj h]

theorem audit_admin_commit_activity_error_kind (fetch : String → FetchOutcome)
    (fuel : Nat) (a : Auditor) (p : Auditor × AuditResult Unit) (e : Error)
    (h : audit_admin_commit_activity fetch fuel a = some p)
    (he : p.2 = Except.error e) :
    e ≠ Error.audit AuditError.noAuditsRan := by
  unfold audit_admin_commit_activity at h
  split at h
  · rw [← Option.some.inj h] at he
    simp at he
  · dsimp only at h
    split at h
    · rw [← Option.some.inj h] at he
      simp only at he
      rw [Except.error.inj he.symm]
      simp
    · split at h
      · exact absurd h (by simp)
      · rename_i e0 heq
        rw [← Option.some.inj h] at he
        simp only at he
        rw [Except.error.inj he.symm]
        rcases getAllAux_error_cases fetch fuel _ [] e0 heq with h0 | h0 <;>
          rw [h0] <;> simp
      · split at h
        · exact absurd h (by simp)
        · rename_i e0 heq
          rw [← Option.some.inj h] at he
          simp only at he
          rw [Except.error.inj he.symm]
          rcases collectPushers_error_cases fetch fuel _ e0 heq with h0 | h0 <;>
            rw [h0] <;> simp
        · split at h
          · rw [← Option.some.inj h] at he
            simp at he
          · rw [← Option.some.inj h] at he
            simp only at he
            rw [Except.error.inj he.symm]
            simp

theorem audit_all_master_state (fetch : String → FetchOutcome)
    (fuel : Nat) (a : Auditor) (p : Auditor × AuditResult Unit)
    (h : audit_all_master_branches_are_protected fetch fuel a = some p) :
    p.1 = a ∨ p.1 = { a with has_run_audit := true } := by
  unfold audit_all_master_branches_are_protected at h
  split at h
  · exact Or.inl (by rw [← Option.some.inj h])
  · dsimp only at h
    refine Or.inr ?_
    split at h
    · rw [← Option.some.inj h]
    · split at h
      · exact absurd h (by simp)
      · rw [← Option.some.inj h]
      · split at h
        · exact absurd h (by simp)
        · rw [← Option.some.inj h]
        · split at h
          · rw [← Option.some.inj h]
          · rw [← Option.some.inj h]

theorem audit_all_master_error_kind (fetch : String → FetchOutcome)
    (fuel : Nat) (a : Auditor) (p : Auditor × AuditResult Unit) (e : Error)
    (h : audit_all_master_branches_are_protected fetch fuel a = some p)
    (he : p.2 = Except.error e) :
    e ≠ Error.audit AuditError.noAuditsRan := by
  unfold audit_all_master_branches_are_protected at h
  split at h
  · rw [← Option.some.inj h] at he
    simp at he
  · dsimp only at h
    split at h
    · rw [← Option.some.inj h] at he
      simp only at he
      rw [Except.error.inj he.symm]
      simp
    · split at h
      · exact absurd h (by simp)
      · rename_i e0 heq
        rw [← Option.some.inj h] at he
        simp only at he
        rw [Except.error.inj he.symm]
        rcases getAllAux_error_cases fetch fuel _ [] e0 heq with h0 | h0 <;>
          rw [h0] <;> simp
      · split at h
        · exact absurd h (by simp)
        · rename_i e0 heq
          rw [← Option.some.inj h] at he
          simp only at he
          rw [Except.error.inj he.symm]
          rcases collectUnprotected_error_cases fetch fuel _ e0 heq with h0 | h0 <;>
            rw [h0] <;> simp
        · split at h
          · rw [← Option.some.inj h] at he
            simp at he
          · rw [← Option.some.inj h] at he
            simp only at he
            rw [Except.error.inj he.symm]
            simp

/-- Auditor holding the default configuration over an arbitrary
organisation, as the builder constructs it. -/
def defaultAuditor (org : Json) (b : Bool) : Auditor :=
  { config := Config.default
    organisation := org
    has_run_audit := b }

/-- C10: `Config::default()` enables all three audit toggles —
including branch protection, whose doc comment announces a `false`
default — so a run under the default configuration always marks at
least one executed check and its report can never contain the
`NoAuditsRan` failure. -/
theorem default_config_runs_all (fetch : String → FetchOutcome) (fuel : Nat)
    (org : Json) (b : Bool) :
    Config.default.enforces_2fa = true ∧
    Config.default.admins_have_no_commit_activity = true ∧
    Config.default.all_repos_master_is_protected = true ∧
    ∀ res, audit fetch fuel (defaultAuditor org b) = some res →
      res.1.has_run_audit = true ∧
      ∀ errs, res.2 = Except.error errs →
        Error.audit AuditError.noAuditsRan ∉ errs := by
  refine ⟨rfl, rfl, rfl, ?_⟩
  intro res h
  have hp : ∀ (errs : List Error) (r : AuditResult Unit),
      pushIfErr errs r = errs ++ errList r := by
    intro errs r
    cases r <;> simp [pushIfErr, errList]
  unfold audit at h
  dsimp only at h
  have hmark : (audit_2fa
      { defaultAuditor org b with has_run_audit := false }).1.has_run_audit = true := by
    rw [audit_2fa_marks _ rfl]
  split at h
  · exact absurd h (by simp)
  · rename_i p2 heq2
    split at h
    · exact absurd h (by simp)
    · rename_i p3 heq3
      have hrun2 : p2.1.has_run_audit = true := by
        rcases audit_admin_commit_activity_state fetch fuel _ p2 heq2 with h2 | h2 <;>
          rw [h2]
        all_goals exact hmark
      have hrun3 : p3.1.has_run_audit = true := by
        rcases audit_all_master_state fetch fuel _ p3 heq3 with h3 | h3 <;>
          rw [h3]
        all_goals exact hrun2
      simp only [hrun3, Bool.not_true, Bool.false_eq_true, if_false] at h
      have hres := Option.some.inj h
      subst hres
      refine ⟨hrun3, ?_⟩
      intro errs herr
      simp only at herr
      split at herr
      · exact absurd herr (by simp)
      · have herrs := Except.error.inj herr
        subst herrs
        intro hmem
        rw [hp, hp, hp] at hmem
        simp only [List.nil_append, List.mem_append] at hmem
        rcases hmem with (hm | hm) | hm
        · cases hr1 : (audit_2fa
              { defaultAuditor org b with has_run_audit := false }).2 with
          | ok _ => rw [hr1] at hm; simp [errList] at hm
          | error e1 =>
            rw [hr1] at hm
            simp only [errList, List.mem_singleton] at hm
            rw [audit_2fa_error_kind _ e1 hr1] at hm
            exact absurd hm (by simp)
        · cases hr2 : p2.2 with
          | ok _ => rw [hr2] at hm; simp [errList] at hm
          | error e2 =>
            rw [hr2] at hm
            simp only [errList, List.mem_singleton] at hm
            exact audit_admin_commit_activity_error_kind fetch fuel _ p2 e2
              heq2 hr2 hm.symm
        · cases hr3 : p3.2 with
          | ok _ => rw [hr3] at hm; simp [errList] at hm
          | error e3 =>
            rw [hr3] at hm
            simp only [errList, List.mem_singleton] at hm
            exact audit_all_master_error_kind fetch fuel _ p3 e3 heq3 hr3 hm.symm

/-- Fully compliant organisation for the C10 witness: 2FA enabled,
listing URLs present. -/
def orgOkW : Json :=
  Json.obj [("two_factor_requirement_enabled", Json.bool true),
    ("members_url", Json.str "mu{/member}"), ("repos_url", Json.str "ru")]

/-- World serving an empty listing on every URL, for the C10 witness. -/
def fetchEmptyW : String → FetchOutcome := fun _ =>
  .success .absent (some (.arr []))

theorem default_config_runs_all_witness :
    audit fetchEmptyW 1 (defaultAuditor orgOkW false) =
      some ({ defaultAuditor orgOkW false with has_run_audit := true },
        Except.ok ()) ∧
    ({ defaultAuditor orgOkW false with
        has_run_audit := true } : Auditor).has_run_audit = true := by
  have h := (default_config_runs_all fetchEmptyW 1 orgOkW false).2.2.2
    ({ defaultAuditor orgOkW false with has_run_audit := true }, Except.ok ()) rfl
  exact ⟨rfl, h.1⟩
